import Mathlib

/-!
# The connection registry of `psiphon/conn.go`

A shallow embedding of the type `Conns` (a mutex-guarded `map[net.Conn]bool`)
and of its three methods `Add`, `Remove` and `CloseAll`.

Modelling decisions:

* A `net.Conn` value is represented by its identity (`NetConn`): a live, non-nil
  connection value of a comparable dynamic type, the only kind of value on which
  `conn.Close()` can be invoked.
* A Go map is either `nil` or an allocated table; a table is a list of entries
  whose keys are pairwise distinct.  Writing to a `nil` map panics, deleting from
  it and ranging over it do not.
* The order in which `range` enumerates a map is not specified by the language;
  it is a parameter (`RangeOrder`) of `CloseAll`.
* `conn.Close()` is an external call; what it returns is given by a parameter of
  `CloseAll` and is recorded in the trace.
* The calls on one registry are serialized by `conns.mutex`, so each method runs
  from entry to exit without interleaving; `Lock`/`Unlock` appear as events of
  the trace.  Every trace entry records the value of the field `conns.conns` at
  that moment.
* `Add` and `Remove` accept every value of the interface type `net.Conn`, the nil
  interface and values of a non-comparable dynamic type included.  The methods on
  such arbitrary values (`ConnValue`, `RawConns`) are given separately, with the
  panics of the map operations and of a method call on the nil interface, and with a
  `Close()` that panics or never returns; on live connections they agree with the
  methods above (`rawAdd_live`, `rawRemove_live`).
* The interface `Conn` has no implementing type in `conn.go`.  The methods
  `SetClosedSignal` and `Close` of an implementing type are modelled from the
  specification of the capability: a connection is `Open` or `Closed`, and `Close`
  signals the registered channel with a non-blocking send.
-/

namespace Psiphon

/-- Identity of a live (non-nil) `net.Conn` value. -/
abbrev NetConn := Nat

/-- A non-nil Go `error` value. -/
structure GoError where
  code : Nat
  deriving DecidableEq, Repr

/-- What `conn.Close()` returns: `none` is the nil error. -/
abbrev CloseResult := Option GoError

/-- Keys of a list of map entries. -/
def entryKeys (es : List (NetConn × Bool)) : List NetConn :=
  es.map Prod.fst

/-- An allocated `map[net.Conn]bool`: entries with pairwise distinct keys. -/
structure Table where
  entries : List (NetConn × Bool)
  nodupKeys : (entryKeys entries).Nodup

/-- The entries after `m[k] = v`: an existing entry of `k` is overwritten,
otherwise a new entry is added. -/
def storeEntry (k : NetConn) (v : Bool) (es : List (NetConn × Bool)) : List (NetConn × Bool) :=
  if k ∈ entryKeys es then es.map (fun e => if e.1 = k then (k, v) else e)
  else es ++ [(k, v)]

/-- The entries after `delete(m, k)`. -/
def deleteEntry (k : NetConn) (es : List (NetConn × Bool)) : List (NetConn × Bool) :=
  es.filter (fun e => decide (e.1 ≠ k))

/-- The table after `m[k] = v`. -/
def Table.store (t : Table) (k : NetConn) (v : Bool) : Table :=
  ⟨storeEntry k v t.entries, by
    unfold storeEntry
    split
    · have hkeys : entryKeys (t.entries.map (fun e => if e.1 = k then (k, v) else e))
          = entryKeys t.entries := by
        unfold entryKeys
        rw [List.map_map]
        apply List.map_congr_left
        intro e _
        by_cases he : e.1 = k <;> simp [he]
      rw [hkeys]
      exact t.nodupKeys
    · rename_i hk
      unfold entryKeys at hk ⊢
      rw [List.map_append, List.nodup_append]
      refine ⟨t.nodupKeys, List.nodup_singleton k, ?_⟩
      intro a ha hb
      simp only [List.map_cons, List.map_nil, List.mem_singleton] at hb
      exact hk (hb ▸ ha)⟩

/-- The table after `delete(m, k)`. -/
def Table.erase (t : Table) (k : NetConn) : Table :=
  ⟨deleteEntry k t.entries,
    List.Nodup.sublist ((List.filter_sublist t.entries).map Prod.fst) t.nodupKeys⟩

/-- A value of type `map[net.Conn]bool`: `nil` or an allocated table. -/
inductive GoMap where
  | nil
  | table (t : Table)

/-- A run-time panic of the Go program. -/
inductive Panic where
  | assignToNilMap
  | unhashableKey
  | nilMethodCall
  | insideClose
  deriving DecidableEq, Repr

/-- The value of `make(map[net.Conn]bool)`. -/
def GoMap.make : GoMap :=
  .table ⟨[], List.nodup_nil⟩

/-- The test `m == nil`. -/
def GoMap.isNil : GoMap → Bool
  | .nil => true
  | .table _ => false

/-- The statement `m[k] = v`: panics when `m` is nil. -/
def GoMap.assign : GoMap → NetConn → Bool → Except Panic GoMap
  | .nil, _, _ => .error .assignToNilMap
  | .table t, k, v => .ok (.table (t.store k v))

/-- The statement `delete(m, k)`: a no-op when `m` is nil or has no entry `k`. -/
def GoMap.delete : GoMap → NetConn → GoMap
  | .nil, _ => .nil
  | .table t, k => .table (t.erase k)

/-- The keys of the map, in the order of the table; a nil map has none. -/
def GoMap.keys : GoMap → List NetConn
  | .nil => []
  | .table t => entryKeys t.entries

/-- The value of `len(m)`. -/
def GoMap.len : GoMap → Nat
  | .nil => 0
  | .table t => t.entries.length

/-- An enumeration order of `range` over a map: some permutation of the keys. -/
structure RangeOrder where
  pick : List NetConn → List NetConn
  perm : ∀ l, (pick l).Perm l

/-- The enumeration in table order. -/
def RangeOrder.tableOrder : RangeOrder :=
  ⟨fun l => l, fun l => List.Perm.refl l⟩

/-- The enumeration in reverse table order. -/
def RangeOrder.reversed : RangeOrder :=
  ⟨fun l => l.reverse, fun l => List.reverse_perm l⟩

/-- The type `Conns`; its field `mutex` is represented by the lock and unlock
events of the trace. -/
structure Conns where
  conns : GoMap

/-- The zero value of `Conns`: the map is not allocated. -/
def Conns.zeroValue : Conns :=
  ⟨.nil⟩

/-- The membership of the registry: the set of keys of its map. -/
def Conns.members (s : Conns) : Finset NetConn :=
  s.conns.keys.toFinset

/-- The size of the registry, `len(conns.conns)`. -/
def Conns.size (s : Conns) : Nat :=
  s.conns.len

/-- Observable events of a method call. -/
inductive Event where
  | lock
  | unlock
  | makeMap
  | store (c : NetConn)
  | delete (c : NetConn)
  | close (c : NetConn) (r : CloseResult)
  deriving DecidableEq, Repr

/-- A trace entry: an event and the value of `conns.conns` right after it. -/
structure Step where
  event : Event
  conns : GoMap

/-- The running state of a method call: the field `conns.conns` and the trace so far. -/
structure Machine where
  conns : GoMap
  trace : List Step

/-- Start of a method call on registry `s`. -/
def Machine.enter (s : Conns) : Machine :=
  ⟨s.conns, []⟩

/-- Record an event together with the current value of `conns.conns`. -/
def Machine.emit (st : Machine) (e : Event) : Machine :=
  { st with trace := st.trace ++ [⟨e, st.conns⟩] }

/-- The assignment `conns.conns = m`. -/
def Machine.setConns (st : Machine) (m : GoMap) : Machine :=
  { st with conns := m }

/-- The registry left behind by a method call. -/
def Machine.registry (st : Machine) : Conns :=
  ⟨st.conns⟩

/-- The method `Conns.Add`. -/
def Conns.Add (s : Conns) (conn : NetConn) : Except Panic Machine := do
  let st := (Machine.enter s).emit .lock
  let st := if st.conns.isNil then (st.setConns GoMap.make).emit .makeMap else st
  let m ← st.conns.assign conn true
  let st := (st.setConns m).emit (.store conn)
  pure (st.emit .unlock)

/-- The method `Conns.Remove`. -/
def Conns.Remove (s : Conns) (conn : NetConn) : Except Panic Machine :=
  let st := (Machine.enter s).emit .lock
  let st := (st.setConns (st.conns.delete conn)).emit (.delete conn)
  .ok (st.emit .unlock)

/-- The loop body of `CloseAll` over the enumerated keys: `conn.Close()`, result discarded. -/
def closeLoop (close : NetConn → CloseResult) : List NetConn → Machine → Machine
  | [], st => st
  | conn :: rest, st => closeLoop close rest (st.emit (.close conn (close conn)))

/-- The method `Conns.CloseAll`. -/
def Conns.CloseAll (s : Conns) (ρ : RangeOrder) (close : NetConn → CloseResult) :
    Except Panic Machine :=
  let st := (Machine.enter s).emit .lock
  let st := closeLoop close (ρ.pick st.conns.keys) st
  let st := (st.setConns GoMap.make).emit .makeMap
  .ok (st.emit .unlock)

/-- The connection on which an event invokes `Close()`, if it is such an event. -/
def Event.closeTarget : Event → Option NetConn
  | .close c _ => some c
  | _ => none

/-- The connections on which `Close()` was invoked, in order of invocation. -/
def closedConns (t : List Step) : List NetConn :=
  t.filterMap (fun st => st.event.closeTarget)

/-- How many times `Close()` was invoked on `c`. -/
def closeCount (c : NetConn) (t : List Step) : Nat :=
  (closedConns t).count c

/-- The membership recorded in a trace entry. -/
def Step.members (st : Step) : Finset NetConn :=
  st.conns.keys.toFinset

/-- The property that the membership is empty at every `Close()` invocation of a trace. -/
def emptyAtEveryClose (t : List Step) : Prop :=
  ∀ st ∈ t, st.event.closeTarget.isSome = true → st.members = ∅

/-- The property that the registry map at every `Close()` invocation of a trace is `m`. -/
def mapAtEveryClose (m : GoMap) (t : List Step) : Prop :=
  ∀ st ∈ t, st.event.closeTarget.isSome = true → st.conns = m

/-- A call of one of the registry methods. -/
inductive Op where
  | add (c : NetConn)
  | remove (c : NetConn)
  | closeAll (ρ : RangeOrder) (close : NetConn → CloseResult)

/-- Execute one method call. -/
def Op.exec : Op → Conns → Except Panic Machine
  | .add c, s => s.Add c
  | .remove c, s => s.Remove c
  | .closeAll ρ close, s => s.CloseAll ρ close

/-- Execute a sequence of serialized method calls, accumulating the trace. -/
def run : List Op → Machine → Except Panic Machine
  | [], st => .ok st
  | op :: ops, st =>
    match op.exec st.registry with
    | .error p => .error p
    | .ok r => run ops ⟨r.conns, st.trace ++ r.trace⟩

/-- An `Add` or `Remove` call. -/
inductive Call where
  | add (c : NetConn)
  | remove (c : NetConn)
  deriving DecidableEq, Repr

/-- The method call denoted by an `Add`/`Remove` call. -/
def Call.op : Call → Op
  | .add c => .add c
  | .remove c => .remove c

/-- The connections passed to some `Add` of the sequence. -/
def addedConns : List Call → Finset NetConn
  | [] => ∅
  | .add c :: t => insert c (addedConns t)
  | .remove _ :: t => addedConns t

/-- The connections passed to some `Remove` of the sequence. -/
def removedConns : List Call → Finset NetConn
  | [] => ∅
  | .add _ :: t => removedConns t
  | .remove c :: t => insert c (removedConns t)

/-- The membership after a run, or `none` if the run panicked. -/
def finalMembers (calls : List Call) (s : Conns) : Option (Finset NetConn) :=
  match run (calls.map Call.op) (Machine.enter s) with
  | .ok r => some r.registry.members
  | .error _ => none

/-- Effect of an `Add`/`Remove` call on a set of connections. -/
def Call.apply (S : Finset NetConn) : Call → Finset NetConn
  | .add c => insert c S
  | .remove c => S.erase c

/-- A registry with one member, connection `1`. -/
def Conns.single : Conns :=
  ⟨.table ⟨[(1, true)], by decide⟩⟩

/-- A registry with two members, connections `1` and `2`. -/
def Conns.pair : Conns :=
  ⟨.table ⟨[(1, true), (2, true)], by decide⟩⟩

/-- A `Close()` that fails on every connection. -/
def closeFails : NetConn → CloseResult :=
  fun c => some ⟨c⟩

/-- A `Close()` that succeeds on every connection. -/
def closeSucceeds : NetConn → CloseResult :=
  fun _ => none

/-- The connection named by an `Add`/`Remove` call. -/
def Call.conn : Call → NetConn
  | .add c => c
  | .remove c => c

/-- The last call of the sequence that names `c`, if there is one. -/
def lastCallOn (c : NetConn) (calls : List Call) : Option Call :=
  (calls.filter (fun k => decide (k.conn = c))).getLast?

/-- A registry with the members `2` and `1`, stored in this order. -/
def Conns.pairSwapped : Conns :=
  ⟨.table ⟨[(2, true), (1, true)], by decide⟩⟩

/-- Identity of a (non-nil) `chan struct{}` value. -/
abbrev ChanId := Nat

/-- A Go channel as seen by a sender: buffer capacity (0 when unbuffered), number of
buffered values, number of receivers blocked on it, and the number of signals it has
received so far. -/
structure Chan where
  capacity : Nat
  queued : Nat
  waiting : Nat
  signals : Nat
  deriving DecidableEq, Repr

/-- The non-blocking send `select { case ch <- struct{}{}: default: }`: the value is
handed to a waiting receiver or put into a free buffer slot, otherwise it is dropped. -/
def Chan.trySend (ch : Chan) : Chan :=
  if 0 < ch.waiting then { ch with waiting := ch.waiting - 1, signals := ch.signals + 1 }
  else if ch.queued < ch.capacity then
    { ch with queued := ch.queued + 1, signals := ch.signals + 1 }
  else ch

/-- Modelled from the spec: the state of a connection of a type implementing `Conn`
(the implementing types are not among the sources): whether it is `Closed`, and the
close-notification channel registered on it, if any. -/
structure SignalConn where
  isClosed : Bool
  closedSignal : Option ChanId
  deriving DecidableEq, Repr

/-- A connection implementing `Conn` together with the channels of the program. -/
structure World where
  conn : SignalConn
  chans : ChanId → Chan

/-- The failure of `SetClosedSignal`. -/
inductive ConnError where
  | alreadyClosed
  deriving DecidableEq, Repr

/-- Modelled from the spec: the method `SetClosedSignal` of a type implementing `Conn`
(only the interface is among the sources).  In `Closed` it fails with
`AlreadyClosedError` and has no side effect; in `Open` it registers the channel. -/
def World.SetClosedSignal (w : World) (ch : ChanId) : World × Option ConnError :=
  if w.conn.isClosed then (w, some .alreadyClosed)
  else ({ w with conn := { w.conn with closedSignal := some ch } }, none)

/-- Modelled from the spec: the method `Close` of a type implementing `Conn` (only the
interface is among the sources).  The first call moves the connection to `Closed` and
signals the registered channel, if any, with a non-blocking send; later calls succeed
and do nothing.  The call always returns. -/
def World.Close (w : World) : World :=
  if w.conn.isClosed then w
  else
    match w.conn.closedSignal with
    | none => { w with conn := { w.conn with isClosed := true } }
    | some ch =>
      { conn := { w.conn with isClosed := true }
        chans := Function.update w.chans ch (w.chans ch).trySend }

/-- A call on a connection implementing `Conn`. -/
inductive ConnOp where
  | close
  | setClosedSignal (ch : ChanId)
  deriving DecidableEq, Repr

/-- Execute one call on the connection. -/
def World.step (w : World) : ConnOp → World
  | .close => w.Close
  | .setClosedSignal ch => (w.SetClosedSignal ch).1

/-- Execute a sequence of calls on the connection. -/
def World.runOps (w : World) (ops : List ConnOp) : World :=
  ops.foldl World.step w

/-- An open connection with no channel registered; every channel is unbuffered and has
no receiver. -/
def World.idle : World :=
  ⟨⟨false, none⟩, fun _ => ⟨0, 0, 0, 0⟩⟩

/-- An open connection with no channel registered; every channel has a buffer of
capacity one, empty, and no receiver. -/
def World.buffered : World :=
  ⟨⟨false, none⟩, fun _ => ⟨1, 0, 0, 0⟩⟩

/-- A value of the interface type `net.Conn`, as `Add` and `Remove` can receive it:
either a value that can be a map key, which is the nil interface (`none`) or a live
connection, or a non-nil value whose dynamic type is not comparable. -/
inductive ConnValue where
  | hashable (k : Option NetConn)
  | unhashable (tag : Nat)
  deriving DecidableEq, Repr

/-- What a call of `conn.Close()` on a live connection does: it returns, it panics, or
it never returns (as when it calls a method of the registry whose mutex `CloseAll`
holds). -/
inductive CloseBehaviour where
  | returns (r : CloseResult)
  | panics
  | blocks
  deriving DecidableEq, Repr

/-- How a method call ends. -/
inductive Ending where
  | returned
  | panicked (p : Panic)
  | blocked
  deriving DecidableEq, Repr

/-- A value of type `map[net.Conn]bool` over all interface values that can be keys:
`nil`, or an allocated table holding the entry of the nil interface key, if there is
one, and the entries of the live connections. -/
inductive ValueMap where
  | nil
  | table (nilEntry : Option Bool) (t : Table)

/-- The value of `make(map[net.Conn]bool)`. -/
def ValueMap.make : ValueMap :=
  .table none ⟨[], List.nodup_nil⟩

/-- The test `m == nil`. -/
def ValueMap.isNil : ValueMap → Bool
  | .nil => true
  | .table _ _ => false

/-- The statement `m[k] = v`: panics when `m` is nil, and when the dynamic type of `k`
is not comparable. -/
def ValueMap.assign : ValueMap → ConnValue → Bool → Except Panic ValueMap
  | .nil, _, _ => .error .assignToNilMap
  | .table _ _, .unhashable _, _ => .error .unhashableKey
  | .table _ t, .hashable none, v => .ok (.table (some v) t)
  | .table n t, .hashable (some c), v => .ok (.table n (t.store c v))

/-- The statement `delete(m, k)`: panics when the dynamic type of `k` is not
comparable, otherwise a no-op when `m` is nil or has no entry `k`. -/
def ValueMap.delete : ValueMap → ConnValue → Except Panic ValueMap
  | _, .unhashable _ => .error .unhashableKey
  | .nil, .hashable _ => .ok .nil
  | .table _ t, .hashable none => .ok (.table none t)
  | .table n t, .hashable (some c) => .ok (.table n (t.erase c))

/-- The keys of the map; `none` is the nil interface. -/
def ValueMap.keys : ValueMap → List (Option NetConn)
  | .nil => []
  | .table n t =>
    (match n with
      | some _ => [none]
      | none => []) ++ (entryKeys t.entries).map some

/-- The map over all interface values that holds the live entries of `m`. -/
def GoMap.toValue : GoMap → ValueMap
  | .nil => .nil
  | .table t => .table none t

/-- An enumeration order of `range` over a map whose keys may include the nil
interface. -/
structure KeyOrder where
  pick : List (Option NetConn) → List (Option NetConn)
  perm : ∀ l, (pick l).Perm l

/-- The enumeration in table order, the nil key first. -/
def KeyOrder.tableOrder : KeyOrder :=
  ⟨fun l => l, fun l => List.Perm.refl l⟩

/-- The enumeration in reverse table order, the nil key last. -/
def KeyOrder.reversed : KeyOrder :=
  ⟨fun l => l.reverse, fun l => List.reverse_perm l⟩

/-- The type `Conns` with a map over all interface values that can be keys. -/
structure RawConns where
  conns : ValueMap

/-- The zero value of `Conns`. -/
def RawConns.zeroValue : RawConns :=
  ⟨.nil⟩

/-- A registry whose members are the live connections `1` and `2`. -/
def RawConns.livePair : RawConns :=
  ⟨.table none ⟨[(1, true), (2, true)], by decide⟩⟩

/-- How a method call leaves the program: the field `conns.conns`, the connections on
which `Close()` was invoked and returned, and how the call ended. -/
structure RawResult where
  conns : ValueMap
  closed : List NetConn
  ending : Ending

/-- The registry left behind by a method call. -/
def RawResult.registry (r : RawResult) : RawConns :=
  ⟨r.conns⟩

/-- The method `Conns.Add` on an arbitrary value of type `net.Conn`; the deferred
`Unlock` runs also when the assignment panics. -/
def RawConns.Add (s : RawConns) (conn : ConnValue) : RawResult :=
  let m := if s.conns.isNil then ValueMap.make else s.conns
  match m.assign conn true with
  | .ok m2 => ⟨m2, [], .returned⟩
  | .error p => ⟨m, [], .panicked p⟩

/-- The method `Conns.Remove` on an arbitrary value of type `net.Conn`. -/
def RawConns.Remove (s : RawConns) (conn : ConnValue) : RawResult :=
  match s.conns.delete conn with
  | .ok m => ⟨m, [], .returned⟩
  | .error p => ⟨s.conns, [], .panicked p⟩

/-- The loop of `CloseAll` over the enumerated keys: `conn.Close()` on the nil
interface panics; on a live connection it does what the connection does, and the loop
goes on only when it returns. -/
def rawCloseLoop (close : NetConn → CloseBehaviour) :
    List (Option NetConn) → List NetConn → List NetConn × Ending
  | [], done => (done, .returned)
  | none :: _, done => (done, .panicked .nilMethodCall)
  | some c :: rest, done =>
    match close c with
    | .returns _ => rawCloseLoop close rest (done ++ [c])
    | .panics => (done, .panicked .insideClose)
    | .blocks => (done, .blocked)

/-- The method `Conns.CloseAll` on a map whose keys may include the nil interface: the
assignment of the fresh map is reached only when the loop has finished. -/
def RawConns.CloseAll (s : RawConns) (ρ : KeyOrder) (close : NetConn → CloseBehaviour) :
    RawResult :=
  match rawCloseLoop close (ρ.pick s.conns.keys) [] with
  | (closed, .returned) => ⟨ValueMap.make, closed, .returned⟩
  | (closed, .panicked p) => ⟨s.conns, closed, .panicked p⟩
  | (closed, .blocked) => ⟨s.conns, closed, .blocked⟩

/-- A `Close()` that returns the nil error on every connection. -/
def closeReturns : NetConn → CloseBehaviour :=
  fun _ => .returns none

/-- A `Close()` that panics on every connection. -/
def closePanics : NetConn → CloseBehaviour :=
  fun _ => .panics

/-- A `Close()` that never returns on any connection. -/
def closeBlocks : NetConn → CloseBehaviour :=
  fun _ => .blocks

/-! ## Maps and membership -/

theorem entryKeys_storeEntry (k : NetConn) (v : Bool) (es : List (NetConn × Bool)) :
    entryKeys (storeEntry k v es) =
      if k ∈ entryKeys es then entryKeys es else entryKeys es ++ [k] := by
  unfold storeEntry
  split
  · unfold entryKeys
    rw [List.map_map]
    apply List.map_congr_left
    intro e _
    by_cases he : e.1 = k <;> simp [he]
  · simp [entryKeys]

theorem entryKeys_deleteEntry (k : NetConn) (es : List (NetConn × Bool)) :
    entryKeys (deleteEntry k es) = (entryKeys es).filter (fun d => decide (d ≠ k)) := by
  unfold entryKeys deleteEntry
  rw [List.filter_map]
  rfl

theorem GoMap.nodup_keys (m : GoMap) : m.keys.Nodup := by
  cases m with
  | nil => exact List.nodup_nil
  | table t => exact t.nodupKeys

theorem GoMap.length_keys (m : GoMap) : m.keys.length = m.len := by
  cases m with
  | nil => rfl
  | table t => simp [GoMap.keys, GoMap.len, entryKeys]

theorem Conns.card_members (s : Conns) : s.members.card = s.size := by
  unfold Conns.members Conns.size
  rw [List.toFinset_card_of_nodup s.conns.nodup_keys, GoMap.length_keys]

theorem Conns.mem_members (s : Conns) (c : NetConn) : c ∈ s.members ↔ c ∈ s.conns.keys := by
  simp [Conns.members]

theorem GoMap.keys_eq_nil_of_members (s : Conns) (h : s.members = ∅) : s.conns.keys = [] := by
  unfold Conns.members at h
  exact List.toFinset_eq_empty_iff _ |>.mp h

theorem deleteEntry_of_not_mem (k : NetConn) (es : List (NetConn × Bool))
    (h : k ∉ entryKeys es) : deleteEntry k es = es := by
  unfold deleteEntry
  rw [List.filter_eq_self]
  intro e he
  have : e.1 ∈ entryKeys es := List.mem_map_of_mem Prod.fst he
  simp only [ne_eq, decide_eq_true_eq]
  intro h2
  exact h (h2 ▸ this)

theorem GoMap.delete_of_not_mem (m : GoMap) (k : NetConn) (h : k ∉ m.keys) :
    m.delete k = m := by
  cases m with
  | nil => rfl
  | table t =>
    cases t with
    | mk es hes =>
      simp only [GoMap.delete, Table.erase, GoMap.table.injEq, Table.mk.injEq]
      exact deleteEntry_of_not_mem k es h

theorem GoMap.keys_delete (m : GoMap) (k : NetConn) :
    (m.delete k).keys = m.keys.filter (fun d => decide (d ≠ k)) := by
  cases m with
  | nil => rfl
  | table t => exact entryKeys_deleteEntry k t.entries

/-! ## The three methods -/

theorem closedConns_append (t u : List Step) :
    closedConns (t ++ u) = closedConns t ++ closedConns u := by
  simp [closedConns, List.filterMap_append]

theorem add_ok (s : Conns) (c : NetConn) :
    ∃ r, s.Add c = .ok r ∧
      r.conns.keys = (if c ∈ s.conns.keys then s.conns.keys else s.conns.keys ++ [c]) ∧
      r.conns.isNil = false ∧ closedConns r.trace = [] := by
  rcases s with ⟨m⟩
  cases m with
  | nil => exact ⟨_, rfl, rfl, rfl, rfl⟩
  | table t => exact ⟨_, rfl, entryKeys_storeEntry c true t.entries, rfl, rfl⟩

theorem add_members (s : Conns) (c : NetConn) :
    ∃ r, s.Add c = .ok r ∧ r.registry.members = insert c s.members ∧
      closedConns r.trace = [] := by
  obtain ⟨r, h1, h2, _, h4⟩ := add_ok s c
  refine ⟨r, h1, ?_, h4⟩
  unfold Conns.members Machine.registry
  simp only [h2]
  ext d
  split <;> rename_i hc
  · simp only [List.mem_toFinset, Finset.mem_insert]
    constructor
    · exact Or.inr
    · rintro (h | h)
      · exact h ▸ hc
      · exact h
  · simp only [List.toFinset_append, List.toFinset_cons, List.toFinset_nil, Finset.mem_union,
      List.mem_toFinset, Finset.mem_insert, Finset.mem_singleton]
    tauto

theorem remove_ok (s : Conns) (c : NetConn) :
    ∃ r, s.Remove c = .ok r ∧ r.conns = s.conns.delete c ∧ closedConns r.trace = [] :=
  ⟨_, rfl, rfl, rfl⟩

theorem remove_members (s : Conns) (c : NetConn) :
    ∃ r, s.Remove c = .ok r ∧ r.registry.members = s.members.erase c ∧
      closedConns r.trace = [] := by
  obtain ⟨r, h1, h2, h3⟩ := remove_ok s c
  refine ⟨r, h1, ?_, h3⟩
  unfold Conns.members Machine.registry
  simp only [h2, GoMap.keys_delete]
  ext d
  simp only [List.mem_toFinset, List.mem_filter, ne_eq, decide_eq_true_eq, Finset.mem_erase]
  tauto

theorem closeLoop_eq (close : NetConn → CloseResult) (l : List NetConn) (st : Machine) :
    closeLoop close l st =
      ⟨st.conns, st.trace ++ l.map (fun c => ⟨.close c (close c), st.conns⟩)⟩ := by
  induction l generalizing st with
  | nil => simp [closeLoop]
  | cons c l ih => simp [closeLoop, ih, Machine.emit]

theorem closedConns_closes (close : NetConn → CloseResult) (m : GoMap) (l : List NetConn) :
    closedConns (l.map (fun c => (⟨.close c (close c), m⟩ : Step))) = l := by
  induction l with
  | nil => rfl
  | cons c l ih =>
    simp only [closedConns, List.map_cons, List.filterMap_cons, Event.closeTarget] at ih ⊢
    rw [ih]

theorem closeAll_eq (s : Conns) (ρ : RangeOrder) (close : NetConn → CloseResult) :
    s.CloseAll ρ close = .ok ⟨GoMap.make, [⟨.lock, s.conns⟩]
        ++ (ρ.pick s.conns.keys).map (fun c => ⟨.close c (close c), s.conns⟩)
        ++ [⟨.makeMap, GoMap.make⟩, ⟨.unlock, GoMap.make⟩]⟩ := by
  simp [Conns.CloseAll, closeLoop_eq, Machine.emit, Machine.setConns, Machine.enter]

theorem closeAll_ok (s : Conns) (ρ : RangeOrder) (close : NetConn → CloseResult) :
    ∃ r, s.CloseAll ρ close = .ok r ∧ r.conns = GoMap.make ∧
      closedConns r.trace = ρ.pick s.conns.keys ∧
      r.trace = [⟨.lock, s.conns⟩]
        ++ (ρ.pick s.conns.keys).map (fun c => ⟨.close c (close c), s.conns⟩)
        ++ [⟨.makeMap, GoMap.make⟩, ⟨.unlock, GoMap.make⟩] := by
  refine ⟨_, closeAll_eq s ρ close, rfl, ?_, rfl⟩
  simp only [closedConns_append, closedConns_closes]
  simp [closedConns, Event.closeTarget]

/-! ## Sequences of calls -/

theorem run_cons_ok (op : Op) (ops : List Op) (st r : Machine)
    (h : op.exec st.registry = .ok r) :
    run (op :: ops) st = run ops ⟨r.conns, st.trace ++ r.trace⟩ := by
  simp [run, h]

theorem call_exec (call : Call) (s : Conns) :
    ∃ r, call.op.exec s = .ok r ∧ r.registry.members = call.apply s.members ∧
      closedConns r.trace = [] := by
  cases call with
  | add c => exact add_members s c
  | remove c => exact remove_members s c

theorem run_calls (calls : List Call) (st : Machine) :
    ∃ r, run (calls.map Call.op) st = .ok r ∧
      r.registry.members = calls.foldl Call.apply st.registry.members ∧
      closedConns r.trace = closedConns st.trace := by
  induction calls generalizing st with
  | nil => exact ⟨st, rfl, rfl, rfl⟩
  | cons call calls ih =>
    obtain ⟨r1, h1, h2, h3⟩ := call_exec call st.registry
    obtain ⟨r, h4, h5, h6⟩ := ih ⟨r1.conns, st.trace ++ r1.trace⟩
    refine ⟨r, ?_, ?_, ?_⟩
    · rw [List.map_cons, run_cons_ok _ _ _ _ h1]
      exact h4
    · rw [h5, List.foldl_cons, ← h2]
      rfl
    · rw [h6, closedConns_append, h3, List.append_nil]

theorem mem_foldl_apply (calls : List Call) (S : Finset NetConn) (c : NetConn) :
    c ∈ calls.foldl Call.apply S ↔
      (∃ pre post, calls = pre ++ Call.add c :: post ∧ Call.remove c ∉ post) ∨
        (c ∈ S ∧ Call.remove c ∉ calls) := by
  induction calls generalizing S with
  | nil => simp
  | cons a calls ih =>
    rw [List.foldl_cons, ih]
    constructor
    · rintro (⟨pre, post, h1, h2⟩ | ⟨h1, h2⟩)
      · exact Or.inl ⟨a :: pre, post, by simp [h1], h2⟩
      · cases a with
        | add d =>
          simp only [Call.apply, Finset.mem_insert] at h1
          rcases h1 with rfl | h1
          · exact Or.inl ⟨[], calls, rfl, h2⟩
          · exact Or.inr ⟨h1, by simp [h2]⟩
        | remove d =>
          simp only [Call.apply, Finset.mem_erase] at h1
          exact Or.inr ⟨h1.2, by simp [h2, h1.1]⟩
    · rintro (⟨pre, post, h1, h2⟩ | ⟨h1, h2⟩)
      · cases pre with
        | nil =>
          simp only [List.nil_append, List.cons.injEq] at h1
          obtain ⟨rfl, rfl⟩ := h1
          exact Or.inr ⟨by simp [Call.apply], h2⟩
        | cons b pre =>
          simp only [List.cons_append, List.cons.injEq] at h1
          obtain ⟨rfl, rfl⟩ := h1
          exact Or.inl ⟨pre, post, rfl, h2⟩
      · simp only [List.mem_cons, not_or] at h2
        refine Or.inr ⟨?_, h2.2⟩
        cases a with
        | add d => simp [Call.apply, h1]
        | remove d =>
          simp only [Call.apply, Finset.mem_erase]
          refine ⟨?_, h1⟩
          intro h3
          exact h2.1 (by rw [h3])

theorem foldl_apply_adds (l : List NetConn) (S : Finset NetConn) :
    (l.map Call.add).foldl Call.apply S = S ∪ l.toFinset := by
  induction l generalizing S with
  | nil => simp
  | cons c l ih =>
    rw [List.map_cons, List.foldl_cons, ih]
    ext d
    simp only [Call.apply, Finset.mem_union, Finset.mem_insert, List.toFinset_cons]
    tauto

/-! ## The claims -/

/-- C1: for every registry state and every connection `c` that is a member when
`CloseAll` is called, the call returns and its trace contains exactly one
invocation of `c.Close()`. -/
theorem closeAll_closes_each_member_once (s : Conns) (ρ : RangeOrder)
    (close : NetConn → CloseResult) (c : NetConn) (h : c ∈ s.members) :
    ∃ r, s.CloseAll ρ close = .ok r ∧ closeCount c r.trace = 1 := by
  obtain ⟨r, h1, _, h3, _⟩ := closeAll_ok s ρ close
  refine ⟨r, h1, ?_⟩
  unfold closeCount
  rw [h3, (ρ.perm _).count_eq]
  exact List.count_eq_one_of_mem s.conns.nodup_keys ((s.mem_members c).mp h)

theorem closeAll_closes_each_member_once_witness :
    (2 : NetConn) ∈ Conns.pair.members ∧
      ∃ r, Conns.pair.CloseAll RangeOrder.reversed closeFails = .ok r ∧
        closeCount 2 r.trace = 1 :=
  ⟨by decide, closeAll_closes_each_member_once Conns.pair RangeOrder.reversed closeFails 2
    (by decide)⟩

/-- C2: for every registry state, the zero value included, `CloseAll` returns and
leaves a registry whose membership is empty. -/
theorem closeAll_empties_membership (s : Conns) (ρ : RangeOrder)
    (close : NetConn → CloseResult) :
    ∃ r, s.CloseAll ρ close = .ok r ∧ r.registry.members = ∅ ∧ r.registry.size = 0 := by
  obtain ⟨r, h1, h2, _, _⟩ := closeAll_ok s ρ close
  refine ⟨r, h1, ?_, ?_⟩
  · simp [Machine.registry, Conns.members, h2, GoMap.make, GoMap.keys, entryKeys]
  · simp [Machine.registry, Conns.size, h2, GoMap.make, GoMap.len]

/-- C3: `Add` is idempotent: if `c` is already a member of `s`, then `Add(c)` returns
and leaves the membership of `s` unchanged; and from any state `u`, `Add(c)` followed
by `Add(c)` yields the same membership as the first `Add(c)` alone. -/
theorem add_idempotent (s u : Conns) (c : NetConn) (h : c ∈ s.members) :
    (∃ r, s.Add c = .ok r ∧ r.registry.members = s.members) ∧
      (∃ r1 r2, u.Add c = .ok r1 ∧ r1.registry.Add c = .ok r2 ∧
        r2.registry.members = r1.registry.members) := by
  constructor
  · obtain ⟨r, h1, h2, _⟩ := add_members s c
    exact ⟨r, h1, by rw [h2, Finset.insert_eq_of_mem h]⟩
  · obtain ⟨r1, h1, h2, _⟩ := add_members u c
    obtain ⟨r2, h3, h4, _⟩ := add_members r1.registry c
    exact ⟨r1, r2, h1, h3, by rw [h4, h2, Finset.insert_idem]⟩

theorem add_idempotent_witness :
    (1 : NetConn) ∈ Conns.pair.members ∧
      ((∃ r, Conns.pair.Add 1 = .ok r ∧ r.registry.members = Conns.pair.members) ∧
        (∃ r1 r2, Conns.zeroValue.Add 1 = .ok r1 ∧ r1.registry.Add 1 = .ok r2 ∧
          r2.registry.members = r1.registry.members)) :=
  ⟨by decide, add_idempotent Conns.pair Conns.zeroValue 1 (by decide)⟩

/-- C4: for every registry state, the zero value included, and every connection `c`
that is not a member, `Remove(c)` returns and leaves the map, hence the membership,
unchanged. -/
theorem remove_nonmember_noop (s : Conns) (c : NetConn) (h : c ∉ s.members) :
    ∃ r, s.Remove c = .ok r ∧ r.conns = s.conns ∧ r.registry.members = s.members := by
  obtain ⟨r, h1, h2, _⟩ := remove_ok s c
  have h3 : r.conns = s.conns := by
    rw [h2]
    exact GoMap.delete_of_not_mem s.conns c (fun hc => h ((s.mem_members c).mpr hc))
  exact ⟨r, h1, h3, by simp [Machine.registry, Conns.members, h3]⟩

theorem remove_nonmember_noop_witness :
    (7 : NetConn) ∉ Conns.zeroValue.members ∧
      ∃ r, Conns.zeroValue.Remove 7 = .ok r ∧ r.conns = Conns.zeroValue.conns ∧
        r.registry.members = Conns.zeroValue.members :=
  ⟨by decide, remove_nonmember_noop Conns.zeroValue 7 (by decide)⟩

/-- C5 (as stated) fails: after `Add(1)`, `Remove(1)`, `Add(1)` on the zero-value
registry the membership is `{1}`, whereas the added connections minus the removed
ones are the empty set. -/
theorem addRemove_not_added_minus_removed :
    finalMembers [.add 1, .remove 1, .add 1] Conns.zeroValue = some {1} ∧
      addedConns [.add 1, .remove 1, .add 1] \ removedConns [.add 1, .remove 1, .add 1] = ∅ ∧
      finalMembers [.add 1, .remove 1, .add 1] Conns.zeroValue ≠
        some (addedConns [.add 1, .remove 1, .add 1] \
          removedConns [.add 1, .remove 1, .add 1]) := by
  decide

/-- C5 (amended): for every finite sequence of `Add` and `Remove` calls applied to an
empty registry, the run returns and a connection `c` is in the final membership
exactly when the sequence contains an `Add(c)` with no `Remove(c)` after it. -/
theorem addRemove_final_membership (calls : List Call) (s : Conns) (hs : s.members = ∅) :
    ∃ r, run (calls.map Call.op) (Machine.enter s) = .ok r ∧
      ∀ c, c ∈ r.registry.members ↔
        ∃ pre post, calls = pre ++ Call.add c :: post ∧ Call.remove c ∉ post := by
  obtain ⟨r, h1, h2, _⟩ := run_calls calls (Machine.enter s)
  refine ⟨r, h1, fun c => ?_⟩
  rw [h2, mem_foldl_apply]
  have h3 : (Machine.enter s).registry.members = ∅ := hs
  simp [h3]

theorem addRemove_final_membership_witness :
    Conns.zeroValue.members = ∅ ∧
      ∃ r, run ([Call.add 1, Call.remove 1, Call.add 1].map Call.op)
          (Machine.enter Conns.zeroValue) = .ok r ∧
        ∀ c, c ∈ r.registry.members ↔
          ∃ pre post, [Call.add 1, Call.remove 1, Call.add 1] = pre ++ Call.add c :: post ∧
            Call.remove c ∉ post :=
  ⟨by decide, addRemove_final_membership [.add 1, .remove 1, .add 1] Conns.zeroValue
    (by decide)⟩

/-- C6: for every list of `N` pairwise distinct connections, in whatever order, the
`N` calls `Add` applied one after the other to an empty registry return and leave a
registry of size exactly `N`, whose members are the connections of the list. -/
theorem adds_distinct_size (s : Conns) (hs : s.members = ∅) (l : List NetConn)
    (hl : l.Nodup) :
    ∃ r, run (l.map Op.add) (Machine.enter s) = .ok r ∧
      r.registry.size = l.length ∧ r.registry.members.card = l.length ∧
      r.registry.members = l.toFinset := by
  obtain ⟨r, h1, h2, _⟩ := run_calls (l.map Call.add) (Machine.enter s)
  have h3 : (l.map Call.add).map Call.op = l.map Op.add := by
    rw [List.map_map]
    rfl
  have h4 : (Machine.enter s).registry.members = ∅ := hs
  rw [h3] at h1
  rw [foldl_apply_adds, h4, Finset.empty_union] at h2
  have h5 : r.registry.members.card = l.length := by
    rw [h2, List.toFinset_card_of_nodup hl]
  exact ⟨r, h1, by rw [← Conns.card_members, h5], h5, h2⟩

theorem adds_distinct_size_witness :
    Conns.zeroValue.members = ∅ ∧ [3, 1, 2].Nodup ∧
      ∃ r, run ([3, 1, 2].map Op.add) (Machine.enter Conns.zeroValue) = .ok r ∧
        r.registry.size = [3, 1, 2].length ∧ r.registry.members.card = [3, 1, 2].length ∧
        r.registry.members = [3, 1, 2].toFinset :=
  ⟨by decide, by decide, adds_distinct_size Conns.zeroValue (by decide) [3, 1, 2]
    (by decide)⟩

/-- C7 (as stated) fails: when `CloseAll` runs on the registry whose only member is
connection `1`, the membership recorded at the invocation of `Close()` on `1` is
`{1}`, not the empty set. -/
theorem closeAll_members_present_at_close :
    ∃ r, Conns.single.CloseAll RangeOrder.tableOrder closeSucceeds = .ok r ∧
      (∃ st ∈ r.trace, st.event = .close 1 none ∧ st.members = {1}) ∧
      ¬ emptyAtEveryClose r.trace := by
  refine ⟨_, rfl, ⟨⟨.close 1 none, Conns.single.conns⟩, ?_, rfl, by decide⟩, ?_⟩
  · exact List.Mem.tail _ (List.Mem.head _)
  · intro h
    have h1 := h ⟨.close 1 none, Conns.single.conns⟩ (List.Mem.tail _ (List.Mem.head _)) rfl
    revert h1
    decide

/-- C7 (amended): `CloseAll` invokes `Close()` on the enumerated members first and only
then replaces the map by a fresh empty one: the trace splits at the map assignment,
every `Close()` invocation lies before it, at every `Close()` invocation the registry
map is still the one `CloseAll` was called on, and the membership is empty when
`CloseAll` returns. -/
theorem closeAll_closes_before_clearing (s : Conns) (ρ : RangeOrder)
    (close : NetConn → CloseResult) :
    ∃ r pre post, s.CloseAll ρ close = .ok r ∧
      r.trace = pre ++ ⟨.makeMap, GoMap.make⟩ :: post ∧
      closedConns pre = ρ.pick s.conns.keys ∧ closedConns post = [] ∧
      mapAtEveryClose s.conns r.trace ∧ r.registry.members = ∅ := by
  refine ⟨_, [⟨.lock, s.conns⟩]
      ++ (ρ.pick s.conns.keys).map (fun c => ⟨.close c (close c), s.conns⟩),
    [⟨.unlock, GoMap.make⟩], closeAll_eq s ρ close, by simp, ?_, rfl, ?_, rfl⟩
  · rw [closedConns_append, closedConns_closes]
    rfl
  · intro st hst hc
    simp only [List.mem_append, List.mem_cons, List.mem_singleton, List.mem_map,
      List.not_mem_nil, or_false] at hst
    rcases hst with (rfl | ⟨c, _, rfl⟩) | rfl | rfl
    · rfl
    · rfl
    · exact absurd hc (by decide)
    · exact absurd hc (by decide)

/-- C8: whatever the individual `Close()` calls return, `CloseAll` returns normally,
has invoked `Close()` on exactly the members, and leaves an empty membership; for any
two assignments of outcomes the final registry and the connections closed are the
same, and each recorded outcome is the one the connection returned. -/
theorem closeAll_swallows_errors (s : Conns) (ρ : RangeOrder)
    (f g : NetConn → CloseResult) :
    ∃ r1 r2, s.CloseAll ρ f = .ok r1 ∧ s.CloseAll ρ g = .ok r2 ∧
      (closedConns r1.trace).toFinset = s.members ∧
      r1.registry.members = ∅ ∧ r1.conns = r2.conns ∧
      closedConns r1.trace = closedConns r2.trace ∧
      (∀ c, c ∈ s.members → (⟨.close c (f c), s.conns⟩ : Step) ∈ r1.trace) := by
  obtain ⟨r1, h1, h2, h3, h4⟩ := closeAll_ok s ρ f
  obtain ⟨r2, k1, k2, k3, _⟩ := closeAll_ok s ρ g
  refine ⟨r1, r2, h1, k1, ?_, ?_, by rw [h2, k2], by rw [h3, k3], ?_⟩
  · rw [h3]
    ext c
    simp only [List.mem_toFinset, Conns.members]
    exact (ρ.perm _).mem_iff
  · simp only [Machine.registry, h2]
    rfl
  · intro c hc
    rw [h4]
    have hc2 : c ∈ ρ.pick s.conns.keys :=
      (ρ.perm _).mem_iff.mpr ((s.mem_members c).mp hc)
    simp only [List.mem_append, List.mem_map]
    exact Or.inl (Or.inr ⟨c, hc2, rfl⟩)

/-- C9: a second `CloseAll` is harmless: from every registry state, `CloseAll` followed
by `CloseAll` returns, the second call invokes `Close()` on no connection and leaves
the membership empty; and after `Add(a)`, `Add(b)`, `CloseAll`, `CloseAll` both `a`
and `b` have been closed exactly once and the size is 0. -/
theorem closeAll_twice (s : Conns) (ρ ρ2 : RangeOrder) (f g : NetConn → CloseResult)
    (a b : NetConn) :
    (∃ r1 r2, s.CloseAll ρ f = .ok r1 ∧ r1.registry.CloseAll ρ2 g = .ok r2 ∧
        closedConns r2.trace = [] ∧ r2.registry.members = ∅ ∧ r2.registry.size = 0) ∧
      (∃ r, run [.add a, .add b, .closeAll ρ f, .closeAll ρ2 g] (Machine.enter s) = .ok r ∧
        closeCount a r.trace = 1 ∧ closeCount b r.trace = 1 ∧ r.registry.size = 0) := by
  have hnil : ∀ m : Machine, m.conns = GoMap.make → ρ2.pick m.registry.conns.keys = [] := by
    intro m hm
    have h := ρ2.perm m.registry.conns.keys
    simp only [Machine.registry, hm] at h ⊢
    exact List.Perm.eq_nil h
  constructor
  · obtain ⟨r1, h1, h2, _, _⟩ := closeAll_ok s ρ f
    obtain ⟨r2, k1, k2, k3, _⟩ := closeAll_ok r1.registry ρ2 g
    refine ⟨r1, r2, h1, k1, ?_, ?_, ?_⟩
    · rw [k3]
      exact hnil r1 h2
    · simp only [Machine.registry, k2]
      rfl
    · simp only [Machine.registry, k2]
      rfl
  · obtain ⟨r1, h1, hm1, hc1⟩ := add_members s a
    obtain ⟨r2, h2, hm2, hc2⟩ := add_members r1.registry b
    obtain ⟨r3, h3, hk3, hc3, _⟩ := closeAll_ok r2.registry ρ f
    obtain ⟨r4, h4, hk4, hc4, _⟩ := closeAll_ok r3.registry ρ2 g
    have e1 : (Op.add a).exec (Machine.enter s).registry = .ok r1 := h1
    have e2 : (Op.add b).exec (Machine.registry ⟨r1.conns, (Machine.enter s).trace ++ r1.trace⟩)
        = .ok r2 := h2
    have e3 : (Op.closeAll ρ f).exec (Machine.registry
        ⟨r2.conns, (Machine.enter s).trace ++ r1.trace ++ r2.trace⟩) = .ok r3 := h3
    have e4 : (Op.closeAll ρ2 g).exec (Machine.registry
        ⟨r3.conns, (Machine.enter s).trace ++ r1.trace ++ r2.trace ++ r3.trace⟩) = .ok r4 := h4
    refine ⟨⟨r4.conns, (Machine.enter s).trace ++ r1.trace ++ r2.trace ++ r3.trace
      ++ r4.trace⟩, ?_, ?_, ?_, ?_⟩
    · rw [run_cons_ok _ _ _ _ e1, run_cons_ok _ _ _ _ e2, run_cons_ok _ _ _ _ e3,
        run_cons_ok _ _ _ _ e4]
      rfl
    all_goals
      have hcl : closedConns ((Machine.enter s).trace ++ r1.trace ++ r2.trace ++ r3.trace
          ++ r4.trace) = ρ.pick r2.registry.conns.keys := by
        simp only [closedConns_append, hc1, hc2, hc3, hc4, hnil r3 hk3]
        simp [Machine.enter, closedConns]
      have hmem : ∀ c, c ∈ r2.registry.members →
          (ρ.pick r2.registry.conns.keys).count c = 1 := by
        intro c hc
        rw [(ρ.perm _).count_eq]
        exact List.count_eq_one_of_mem r2.registry.conns.nodup_keys
          ((r2.registry.mem_members c).mp hc)
    · show (closedConns _).count a = 1
      rw [hcl]
      exact hmem a (by rw [hm2, hm1]; simp)
    · show (closedConns _).count b = 1
      rw [hcl]
      exact hmem b (by rw [hm2]; simp)
    · simp only [Machine.registry, Conns.size, hk4]
      rfl

/-! ## Further lemmas on sequences of calls -/

theorem op_exec_ok (op : Op) (s : Conns) : ∃ r, op.exec s = .ok r := by
  cases op with
  | add c =>
    obtain ⟨r, h, _⟩ := add_ok s c
    exact ⟨r, h⟩
  | remove c =>
    obtain ⟨r, h, _⟩ := remove_ok s c
    exact ⟨r, h⟩
  | closeAll ρ close =>
    obtain ⟨r, h, _⟩ := closeAll_ok s ρ close
    exact ⟨r, h⟩

theorem run_ok (ops : List Op) (st : Machine) : ∃ r, run ops st = .ok r := by
  induction ops generalizing st with
  | nil => exact ⟨st, rfl⟩
  | cons op ops ih =>
    obtain ⟨r1, h1⟩ := op_exec_ok op st.registry
    obtain ⟨r, h⟩ := ih ⟨r1.conns, st.trace ++ r1.trace⟩
    exact ⟨r, by rw [run_cons_ok _ _ _ _ h1, h]⟩

theorem lastCallOn_append_singleton (c : NetConn) (calls : List Call) (a : Call) :
    lastCallOn c (calls ++ [a]) = if a.conn = c then some a else lastCallOn c calls := by
  unfold lastCallOn
  by_cases h : a.conn = c
  · simp [List.filter_append, h, List.getLast?_append]
  · simp [List.filter_append, h]

theorem mem_foldl_apply_last (calls : List Call) (S : Finset NetConn) (c : NetConn) :
    c ∈ calls.foldl Call.apply S ↔
      lastCallOn c calls = some (Call.add c) ∨ (lastCallOn c calls = none ∧ c ∈ S) := by
  induction calls using List.reverseRecOn with
  | nil => simp [lastCallOn]
  | append_singleton calls a ih =>
    rw [List.foldl_append, lastCallOn_append_singleton]
    cases a with
    | add d =>
      by_cases h : d = c
      · subst h
        simp [Call.apply, Call.conn]
      · have h2 : ¬ c = d := fun h3 => h h3.symm
        simp [Call.apply, Call.conn, h, h2, ih]
    | remove d =>
      by_cases h : d = c
      · subst h
        simp [Call.apply, Call.conn]
      · have h2 : ¬ c = d := fun h3 => h h3.symm
        simp [Call.apply, Call.conn, h, h2, ih]

/-! ## Connections implementing `Conn` -/

theorem World.isClosed_close (w : World) : w.Close.conn.isClosed = true := by
  unfold World.Close
  by_cases h : w.conn.isClosed = true
  · simp [h]
  · simp only [h]
    cases w.conn.closedSignal <;> rfl

theorem World.step_of_closed (w : World) (h : w.conn.isClosed = true) (op : ConnOp) :
    w.step op = w := by
  cases op with
  | close => simp [World.step, World.Close, h]
  | setClosedSignal ch => simp [World.step, World.SetClosedSignal, h]

theorem World.runOps_of_closed (w : World) (h : w.conn.isClosed = true) (ops : List ConnOp) :
    w.runOps ops = w := by
  induction ops with
  | nil => rfl
  | cons op ops ih =>
    unfold World.runOps at ih ⊢
    rw [List.foldl_cons, World.step_of_closed w h op]
    exact ih

theorem Chan.signals_trySend (ch : Chan) :
    (ch.trySend.signals = ch.signals + 1 ↔ (0 < ch.waiting ∨ ch.queued < ch.capacity)) ∧
      ch.signals ≤ ch.trySend.signals ∧ ch.trySend.signals ≤ ch.signals + 1 := by
  unfold Chan.trySend
  by_cases h1 : 0 < ch.waiting
  · simp [h1]
  · by_cases h2 : ch.queued < ch.capacity
    · simp [h1, h2]
    · simp [h1, h2]

/-! ## The claims on reachable states, call sequences and the trace of `CloseAll` -/

/-- C11: every sequence of `Add`, `Remove` and `CloseAll` calls applied to the zero-value
registry returns, and in the state it reaches no connection occurs more than once among
the keys of the map: the size of the registry equals the number of distinct members. -/
theorem reachable_no_duplicates (ops : List Op) :
    ∃ r, run ops (Machine.enter Conns.zeroValue) = .ok r ∧
      r.registry.conns.keys.Nodup ∧ (∀ c, r.registry.conns.keys.count c ≤ 1) ∧
      r.registry.size = r.registry.members.card := by
  obtain ⟨r, h⟩ := run_ok ops (Machine.enter Conns.zeroValue)
  refine ⟨r, h, r.registry.conns.nodup_keys, fun c => ?_, (Conns.card_members _).symm⟩
  exact List.nodup_iff_count_le_one.mp r.registry.conns.nodup_keys c

/-- C14: `CloseAll` performs every `Close()` call while holding the registry lock: its
event trace is the lock acquisition, then the `Close()` invocations on the enumerated
members, then the reset of the map, and the release of the lock as the last event. -/
theorem closeAll_closes_under_lock (s : Conns) (ρ : RangeOrder)
    (close : NetConn → CloseResult) :
    ∃ r body, s.CloseAll ρ close = .ok r ∧
      r.trace.map Step.event = Event.lock :: body ++ [Event.unlock] ∧
      body = (ρ.pick s.conns.keys).map (fun c => Event.close c (close c))
        ++ [Event.makeMap] ∧
      Event.lock ∉ body ∧ Event.unlock ∉ body ∧
      closedConns r.trace = ρ.pick s.conns.keys := by
  obtain ⟨r, h1, _, h3, h4⟩ := closeAll_ok s ρ close
  refine ⟨r, _, h1, ?_, rfl, ?_, ?_, h3⟩
  · rw [h4]
    simp [List.map_append, List.map_map, Function.comp_def]
  · simp
  · simp

/-- C15: for every finite sequence of `Add` and `Remove` calls applied to any registry
state, the run returns and a connection `c` is a member of the final registry exactly
when the last call of the sequence that names `c` is an `Add`, or no call names `c` and
`c` was a member initially. -/
theorem addRemove_last_call_wins (calls : List Call) (s : Conns) :
    ∃ r, run (calls.map Call.op) (Machine.enter s) = .ok r ∧
      ∀ c, c ∈ r.registry.members ↔
        lastCallOn c calls = some (Call.add c) ∨ (lastCallOn c calls = none ∧ c ∈ s.members) := by
  obtain ⟨r, h1, h2, _⟩ := run_calls calls (Machine.enter s)
  refine ⟨r, h1, fun c => ?_⟩
  rw [h2, mem_foldl_apply_last]
  rfl

/-- C16: `Add` and `Remove` invoke `Close()` on no connection, `CloseAll` invokes it
exactly on the connections that are members when it is called, and after `Add(c)`,
`Remove(c)` a subsequent `CloseAll` does not close `c`. -/
theorem close_only_from_closeAll (s : Conns) (c : NetConn) (ρ : RangeOrder)
    (close : NetConn → CloseResult) :
    (∃ r, s.Add c = .ok r ∧ closedConns r.trace = []) ∧
      (∃ r, s.Remove c = .ok r ∧ closedConns r.trace = []) ∧
      (∃ r, s.CloseAll ρ close = .ok r ∧ (closedConns r.trace).toFinset = s.members) ∧
      (∃ r, run [.add c, .remove c, .closeAll ρ close] (Machine.enter s) = .ok r ∧
        closeCount c r.trace = 0) := by
  obtain ⟨r1, h1, hm1, hc1⟩ := add_members s c
  obtain ⟨r2, h2, hm2, hc2⟩ := remove_members s c
  obtain ⟨r3, h3, _, hc3, _⟩ := closeAll_ok s ρ close
  refine ⟨⟨r1, h1, hc1⟩, ⟨r2, h2, hc2⟩, ⟨r3, h3, ?_⟩, ?_⟩
  · rw [hc3]
    ext d
    simp only [List.mem_toFinset, Conns.members]
    exact (ρ.perm _).mem_iff
  · obtain ⟨q2, k2, km2, kc2⟩ := remove_members r1.registry c
    obtain ⟨q3, k3, _, kc3, _⟩ := closeAll_ok q2.registry ρ close
    have e1 : (Op.add c).exec (Machine.enter s).registry = .ok r1 := h1
    have e2 : (Op.remove c).exec
        (Machine.registry ⟨r1.conns, (Machine.enter s).trace ++ r1.trace⟩) = .ok q2 := k2
    have e3 : (Op.closeAll ρ close).exec (Machine.registry
        ⟨q2.conns, (Machine.enter s).trace ++ r1.trace ++ q2.trace⟩) = .ok q3 := k3
    refine ⟨⟨q3.conns, (Machine.enter s).trace ++ r1.trace ++ q2.trace ++ q3.trace⟩, ?_, ?_⟩
    · rw [run_cons_ok _ _ _ _ e1, run_cons_ok _ _ _ _ e2, run_cons_ok _ _ _ _ e3]
      rfl
    · have hcl : closedConns ((Machine.enter s).trace ++ r1.trace ++ q2.trace ++ q3.trace)
          = ρ.pick q2.registry.conns.keys := by
        simp only [closedConns_append, hc1, kc2, kc3]
        simp [Machine.enter, closedConns]
      show (closedConns _).count c = 0
      rw [hcl, (ρ.perm _).count_eq, List.count_eq_zero]
      intro hmem
      have h5 : c ∈ q2.registry.members := (q2.registry.mem_members c).mpr hmem
      rw [km2] at h5
      exact (Finset.not_mem_erase c _) h5

/-- C17: `Add(c)` and `Remove(c)` change the membership status of `c` only: for every
registry state and every connection `d` different from `c`, both calls return and `d` is
a member afterwards exactly when it was a member before. -/
theorem addRemove_frame (s : Conns) (c d : NetConn) (h : d ≠ c) :
    (∃ r, s.Add c = .ok r ∧ (d ∈ r.registry.members ↔ d ∈ s.members)) ∧
      (∃ r, s.Remove c = .ok r ∧ (d ∈ r.registry.members ↔ d ∈ s.members)) := by
  obtain ⟨r1, h1, hm1, _⟩ := add_members s c
  obtain ⟨r2, h2, hm2, _⟩ := remove_members s c
  refine ⟨⟨r1, h1, ?_⟩, ⟨r2, h2, ?_⟩⟩
  · rw [hm1, Finset.mem_insert]
    exact ⟨fun h3 => h3.resolve_left h, Or.inr⟩
  · rw [hm2, Finset.mem_erase]
    exact ⟨fun h3 => h3.2, fun h3 => ⟨h, h3⟩⟩

theorem addRemove_frame_witness :
    (2 : NetConn) ≠ 1 ∧
      ((∃ r, Conns.single.Add 1 = .ok r ∧
          ((2 : NetConn) ∈ r.registry.members ↔ (2 : NetConn) ∈ Conns.single.members)) ∧
        (∃ r, Conns.single.Remove 1 = .ok r ∧
          ((2 : NetConn) ∈ r.registry.members ↔ (2 : NetConn) ∈ Conns.single.members))) :=
  ⟨by decide, addRemove_frame Conns.single 1 2 (by decide)⟩

/-- C18: the outcome of `CloseAll` does not depend on the enumeration order of the map:
for two registries with the same membership and any two enumeration orders, both calls
return, close the same set of connections, each connection the same number of times,
and end in the same registry state, whose membership is empty. -/
theorem closeAll_order_independent (s u : Conns) (h : s.members = u.members)
    (ρ1 ρ2 : RangeOrder) (close : NetConn → CloseResult) :
    ∃ r1 r2, s.CloseAll ρ1 close = .ok r1 ∧ u.CloseAll ρ2 close = .ok r2 ∧
      (closedConns r1.trace).toFinset = (closedConns r2.trace).toFinset ∧
      (∀ c, closeCount c r1.trace = closeCount c r2.trace) ∧
      (closedConns r1.trace).Perm (closedConns r2.trace) ∧
      r1.conns = r2.conns ∧ r1.registry.members = ∅ := by
  obtain ⟨r1, h1, h2, h3, _⟩ := closeAll_ok s ρ1 close
  obtain ⟨r2, k1, k2, k3, _⟩ := closeAll_ok u ρ2 close
  have hperm : (closedConns r1.trace).Perm (closedConns r2.trace) := by
    rw [h3, k3]
    refine ((ρ1.perm _).trans ?_).trans (ρ2.perm _).symm
    exact List.perm_of_nodup_nodup_toFinset_eq s.conns.nodup_keys u.conns.nodup_keys h
  refine ⟨r1, r2, h1, k1, ?_, fun c => hperm.count_eq c, hperm, by rw [h2, k2], ?_⟩
  · ext c
    simp only [List.mem_toFinset]
    exact hperm.mem_iff
  · simp only [Machine.registry, h2]
    rfl

theorem closeAll_order_independent_witness :
    Conns.pair.members = Conns.pairSwapped.members ∧
      ∃ r1 r2, Conns.pair.CloseAll RangeOrder.reversed closeFails = .ok r1 ∧
        Conns.pairSwapped.CloseAll RangeOrder.reversed closeFails = .ok r2 ∧
        (closedConns r1.trace).toFinset = (closedConns r2.trace).toFinset ∧
        (∀ c, closeCount c r1.trace = closeCount c r2.trace) ∧
        (closedConns r1.trace).Perm (closedConns r2.trace) ∧
        r1.conns = r2.conns ∧ r1.registry.members = ∅ :=
  ⟨by decide, closeAll_order_independent Conns.pair Conns.pairSwapped (by decide)
    RangeOrder.reversed RangeOrder.reversed closeFails⟩

/-! ## The claims on the close signal of `Conn` -/

/-- C12: on a connection implementing `Conn`, `SetClosedSignal` called after `Close()`
has returned fails with `AlreadyClosedError` and leaves the connection and every channel
unchanged; whatever calls follow, no channel is ever signalled. -/
theorem setClosedSignal_after_close (w : World) (ch : ChanId) (ops : List ConnOp) :
    w.Close.SetClosedSignal ch = (w.Close, some ConnError.alreadyClosed) ∧
      ((w.Close.SetClosedSignal ch).1.runOps ops).chans ch = w.Close.chans ch ∧
      (w.Close.SetClosedSignal ch).1.runOps ops = w.Close := by
  have h1 : w.Close.SetClosedSignal ch = (w.Close, some ConnError.alreadyClosed) := by
    simp [World.SetClosedSignal, World.isClosed_close]
  have h2 : (w.Close.SetClosedSignal ch).1.runOps ops = w.Close := by
    rw [h1]
    exact World.runOps_of_closed _ (World.isClosed_close w) ops
  exact ⟨h1, by rw [h2], h2⟩

/-- C13 (as stated) fails: with an unbuffered channel that nobody reads, registered on an
open connection, `Close()` returns but the channel has received no signal. -/
theorem close_signal_dropped_unbuffered :
    (World.idle.SetClosedSignal 0).2 = none ∧
      ((World.idle.SetClosedSignal 0).1.Close.chans 0).signals = 0 ∧
      ((World.idle.SetClosedSignal 0).1.Close.chans 0).signals ≠
        (World.idle.chans 0).signals + 1 := by
  simp [World.idle, World.SetClosedSignal, World.Close, Chan.trySend]

/-- C13 (amended): if `SetClosedSignal(ch)` is called while the connection is open, it
succeeds, and a following `Close()` returns after a non-blocking send on `ch`: `ch`
receives at most one signal, exactly one when it has a waiting receiver or a free buffer
slot at that moment and none otherwise; whatever calls follow, `Close()` included, the
connection delivers no additional signal. -/
theorem close_signals_registered_channel (w : World) (ch : ChanId) (ops : List ConnOp)
    (h : w.conn.isClosed = false) :
    (w.SetClosedSignal ch).2 = none ∧
      (w.SetClosedSignal ch).1.Close.chans ch = (w.chans ch).trySend ∧
      (((w.SetClosedSignal ch).1.Close.chans ch).signals = (w.chans ch).signals + 1 ↔
        (0 < (w.chans ch).waiting ∨ (w.chans ch).queued < (w.chans ch).capacity)) ∧
      (w.chans ch).signals ≤ ((w.SetClosedSignal ch).1.Close.chans ch).signals ∧
      ((w.SetClosedSignal ch).1.Close.chans ch).signals ≤ (w.chans ch).signals + 1 ∧
      (w.SetClosedSignal ch).1.Close.runOps ops = (w.SetClosedSignal ch).1.Close := by
  have h1 : (w.SetClosedSignal ch).1.Close.chans ch = (w.chans ch).trySend := by
    simp [World.SetClosedSignal, World.Close, h]
  obtain ⟨k1, k2, k3⟩ := Chan.signals_trySend (w.chans ch)
  refine ⟨by simp [World.SetClosedSignal, h], h1, ?_, ?_, ?_, ?_⟩
  · rw [h1]
    exact k1
  · rw [h1]
    exact k2
  · rw [h1]
    exact k3
  · exact World.runOps_of_closed _ (World.isClosed_close _) ops

theorem close_signals_registered_channel_witness :
    World.buffered.conn.isClosed = false ∧
      ((World.buffered.SetClosedSignal 0).2 = none ∧
        (World.buffered.SetClosedSignal 0).1.Close.chans 0 = (World.buffered.chans 0).trySend ∧
        (((World.buffered.SetClosedSignal 0).1.Close.chans 0).signals
            = (World.buffered.chans 0).signals + 1 ↔
          (0 < (World.buffered.chans 0).waiting ∨
            (World.buffered.chans 0).queued < (World.buffered.chans 0).capacity)) ∧
        (World.buffered.chans 0).signals
          ≤ ((World.buffered.SetClosedSignal 0).1.Close.chans 0).signals ∧
        ((World.buffered.SetClosedSignal 0).1.Close.chans 0).signals
          ≤ (World.buffered.chans 0).signals + 1 ∧
        (World.buffered.SetClosedSignal 0).1.Close.runOps [ConnOp.close, ConnOp.close]
          = (World.buffered.SetClosedSignal 0).1.Close) :=
  ⟨rfl, close_signals_registered_channel World.buffered 0 [ConnOp.close, ConnOp.close] rfl⟩

/-! ## The methods on arbitrary values of type `net.Conn` -/

theorem GoMap.keys_toValue (m : GoMap) : m.toValue.keys = m.keys.map some := by
  cases m with
  | nil => rfl
  | table t => rfl

theorem rawAdd_live (s : Conns) (c : NetConn) :
    ∃ r, s.Add c = .ok r ∧
      RawConns.Add ⟨s.conns.toValue⟩ (.hashable (some c)) = ⟨r.conns.toValue, [], .returned⟩ := by
  rcases s with ⟨m⟩
  cases m with
  | nil => exact ⟨_, rfl, rfl⟩
  | table t => exact ⟨_, rfl, rfl⟩

theorem rawRemove_live (s : Conns) (c : NetConn) :
    ∃ r, s.Remove c = .ok r ∧
      RawConns.Remove ⟨s.conns.toValue⟩ (.hashable (some c))
        = ⟨r.conns.toValue, [], .returned⟩ := by
  rcases s with ⟨m⟩
  cases m with
  | nil => exact ⟨_, rfl, rfl⟩
  | table t => exact ⟨_, rfl, rfl⟩

theorem rawCloseLoop_returns (close : NetConn → CloseBehaviour) (l : List (Option NetConn))
    (done : List NetConn) (hnil : none ∉ l)
    (hclose : ∀ d, some d ∈ l → ∃ r, close d = .returns r) :
    rawCloseLoop close l done = (done ++ l.filterMap id, .returned) := by
  induction l generalizing done with
  | nil => simp [rawCloseLoop]
  | cons k l ih =>
    cases k with
    | none => exact absurd (List.mem_cons_self _ _) hnil
    | some c =>
      obtain ⟨r, hr⟩ := hclose c (List.mem_cons_self _ _)
      have h1 : none ∉ l := fun h => hnil (List.mem_cons_of_mem _ h)
      have h2 : ∀ d, some d ∈ l → ∃ r, close d = .returns r :=
        fun d hd => hclose d (List.mem_cons_of_mem _ hd)
      simp only [rawCloseLoop, hr, ih (done ++ [c]) h1 h2]
      simp

theorem rawCloseAll_returns (s : RawConns) (ρ : KeyOrder) (close : NetConn → CloseBehaviour)
    (hnil : none ∉ s.conns.keys)
    (hclose : ∀ d, some d ∈ s.conns.keys → ∃ r, close d = .returns r) :
    s.CloseAll ρ close = ⟨ValueMap.make, (ρ.pick s.conns.keys).filterMap id, .returned⟩ := by
  have h1 : none ∉ ρ.pick s.conns.keys := fun h => hnil ((ρ.perm _).mem_iff.mp h)
  have h2 : ∀ d, some d ∈ ρ.pick s.conns.keys → ∃ r, close d = .returns r :=
    fun d hd => hclose d ((ρ.perm _).mem_iff.mp hd)
  unfold RawConns.CloseAll
  rw [rawCloseLoop_returns close _ [] h1 h2]
  simp

theorem rawAdd_hashable (s : RawConns) (k : Option NetConn) :
    (s.Add (.hashable k)).ending = .returned ∧ (s.Add (.hashable k)).conns.isNil = false ∧
      k ∈ (s.Add (.hashable k)).conns.keys := by
  rcases s with ⟨m⟩
  cases m with
  | nil =>
    cases k with
    | none => exact ⟨rfl, rfl, by decide⟩
    | some c => exact ⟨rfl, rfl, by simp [RawConns.Add, ValueMap.isNil, ValueMap.make,
        ValueMap.assign, ValueMap.keys, Table.store, storeEntry, entryKeys]⟩
  | table n t =>
    cases k with
    | none =>
      refine ⟨rfl, rfl, ?_⟩
      simp [RawConns.Add, ValueMap.isNil, ValueMap.assign, ValueMap.keys]
    | some c =>
      refine ⟨rfl, rfl, ?_⟩
      have h := entryKeys_storeEntry c true t.entries
      show some c ∈ (ValueMap.table n (t.store c true)).keys
      simp only [ValueMap.keys, List.mem_append, List.mem_map]
      refine Or.inr ⟨c, ?_, rfl⟩
      show c ∈ entryKeys (storeEntry c true t.entries)
      rw [h]
      split
      · assumption
      · simp

theorem rawRemove_hashable (s : RawConns) (k : Option NetConn) :
    (s.Remove (.hashable k)).ending = .returned ∧ k ∉ (s.Remove (.hashable k)).conns.keys := by
  rcases s with ⟨m⟩
  cases m with
  | nil =>
    refine ⟨rfl, ?_⟩
    simp [RawConns.Remove, ValueMap.delete, ValueMap.keys]
  | table n t =>
    cases k with
    | none =>
      refine ⟨rfl, ?_⟩
      simp [RawConns.Remove, ValueMap.delete, ValueMap.keys]
    | some c =>
      refine ⟨rfl, ?_⟩
      have h := entryKeys_deleteEntry c t.entries
      show some c ∉ (ValueMap.table n (t.erase c)).keys
      simp only [ValueMap.keys, List.mem_append, List.mem_map, not_or]
      constructor
      · cases n <;> simp
      · rintro ⟨d, hd, hdc⟩
        have hdc2 : d = c := Option.some.inj hdc
        have hd2 : d ∈ entryKeys (deleteEntry c t.entries) := hd
        rw [h, List.mem_filter] at hd2
        simp [hdc2] at hd2

/-! ## The claim that no registry operation fails -/

/-- C10 (as stated) fails: `Add` of the nil interface on the zero-value registry returns
and stores the nil key, and the following `CloseAll` panics on the method call on the
nil interface, leaving the map as it was.  Moreover `Add` and `Remove` panic on a value
whose dynamic type is not comparable, and `CloseAll` does not return normally when the
`Close()` of a member panics or never returns. -/
theorem closeAll_panics_on_nil_member :
    (RawConns.zeroValue.Add (.hashable none)).ending = .returned ∧
      (RawConns.zeroValue.Add (.hashable none)).conns.keys = [none] ∧
      ((RawConns.zeroValue.Add (.hashable none)).registry.CloseAll
          KeyOrder.tableOrder closeReturns).ending = .panicked .nilMethodCall ∧
      ((RawConns.zeroValue.Add (.hashable none)).registry.CloseAll
          KeyOrder.tableOrder closeReturns).conns.keys = [none] ∧
      (RawConns.zeroValue.Add (.unhashable 0)).ending = .panicked .unhashableKey ∧
      (RawConns.zeroValue.Remove (.unhashable 0)).ending = .panicked .unhashableKey ∧
      (RawConns.livePair.CloseAll KeyOrder.tableOrder closePanics).ending
        = .panicked .insideClose ∧
      (RawConns.livePair.CloseAll KeyOrder.tableOrder closeBlocks).ending = .blocked := by
  decide

/-- C10 (amended): for every registry state, the zero value included, `Add` and `Remove`
return normally for every argument that is the nil interface or a connection of
comparable dynamic type; `CloseAll` returns normally and leaves an empty map for every
registry state that has no nil member and in which the `Close()` of every member
returns; `Add` on the zero-value registry allocates the map and yields the membership
`{c}`. -/
theorem registry_ops_return (s u : RawConns) (k : Option NetConn) (ρ : KeyOrder)
    (close : NetConn → CloseBehaviour) (hnil : none ∉ s.conns.keys)
    (hclose : ∀ d, some d ∈ s.conns.keys → ∃ r, close d = .returns r) :
    (u.Add (.hashable k)).ending = .returned ∧
      (u.Remove (.hashable k)).ending = .returned ∧
      (s.CloseAll ρ close).ending = .returned ∧
      (s.CloseAll ρ close).conns.isNil = false ∧
      (s.CloseAll ρ close).conns.keys = [] ∧
      (s.CloseAll ρ close).closed.Perm (s.conns.keys.filterMap id) ∧
      (RawConns.zeroValue.Add (.hashable k)).ending = .returned ∧
      (RawConns.zeroValue.Add (.hashable k)).conns.isNil = false ∧
      (RawConns.zeroValue.Add (.hashable k)).conns.keys = [k] := by
  have h := rawCloseAll_returns s ρ close hnil hclose
  refine ⟨(rawAdd_hashable u k).1, (rawRemove_hashable u k).1, by rw [h], by rw [h]; rfl,
    by rw [h]; rfl, ?_, (rawAdd_hashable _ k).1, (rawAdd_hashable _ k).2.1, ?_⟩
  · rw [h]
    exact (ρ.perm _).filterMap id
  · cases k with
    | none => rfl
    | some c => rfl

theorem registry_ops_return_witness :
    none ∉ RawConns.livePair.conns.keys ∧
      (∀ d, some d ∈ RawConns.livePair.conns.keys → ∃ r, closeReturns d = .returns r) ∧
      ((RawConns.zeroValue.Add (.hashable none)).registry.Add (.hashable (some 3))).ending
        = .returned ∧
      ((RawConns.zeroValue.Add (.hashable none)).registry.Remove (.hashable (some 3))).ending
        = .returned ∧
      (RawConns.livePair.CloseAll KeyOrder.reversed closeReturns).ending = .returned ∧
      (RawConns.livePair.CloseAll KeyOrder.reversed closeReturns).conns.isNil = false ∧
      (RawConns.livePair.CloseAll KeyOrder.reversed closeReturns).conns.keys = [] ∧
      (RawConns.livePair.CloseAll KeyOrder.reversed closeReturns).closed.Perm
        (RawConns.livePair.conns.keys.filterMap id) ∧
      (RawConns.zeroValue.Add (.hashable (some 3))).ending = .returned ∧
      (RawConns.zeroValue.Add (.hashable (some 3))).conns.isNil = false ∧
      (RawConns.zeroValue.Add (.hashable (some 3))).conns.keys = [some 3] :=
  ⟨by decide, fun _ _ => ⟨none, rfl⟩,
    registry_ops_return RawConns.livePair (RawConns.zeroValue.Add (.hashable none)).registry
      (some 3) KeyOrder.reversed closeReturns (by decide) (fun _ _ => ⟨none, rfl⟩)⟩

end Psiphon
